import Mathlib

/-!
# Composer dependency tree: lockfile table and bounded tree builder

A shallow embedding of `module/composer/composer.go`:

* `Package`, `Dependency` : the records the builder reads and emits;
* `Table` : the Go `map[string]Package`, with the zero-value lookup of Go;
* `InspectProject_lockfilePkgs` : the table-filling loop of `InspectProject`;
* `_buildDepTree` : the recursive tree builder, with the visited set passed
  in and handed back (the Go code mutates one shared map), and a fuel
  argument bounding the nesting depth of calls.
-/

namespace Composer

/-- Go `type Package struct { Element; Require []string }` with
`Element = { Name, Version string }`. -/
structure Package where
  Name : String
  Version : String
  Require : List String
deriving Repr, DecidableEq

/-- The fields of `model.Dependency` written by the composer inspector. -/
inductive Dependency where
  | mk (Name : String) (Version : String) (Dependencies : List Dependency)
deriving Repr

/-- Field `Name` of a dependency node. -/
def Dependency.name : Dependency → String
  | .mk n _ _ => n

/-- Field `Version` of a dependency node. -/
def Dependency.version : Dependency → String
  | .mk _ v _ => v

/-- Field `Dependencies` of a dependency node. -/
def Dependency.dependencies : Dependency → List Dependency
  | .mk _ _ ds => ds

mutual
/-- Names along every root-to-leaf path of a dependency tree. -/
def Dependency.paths : Dependency → List (List String)
  | .mk n _ ds => if ds.isEmpty then [[n]] else (pathsList ds).map (fun p => n :: p)
/-- Root-to-leaf paths of a forest, tree by tree. -/
def pathsList : List Dependency → List (List String)
  | [] => []
  | d :: ds => d.paths ++ pathsList ds
end

mutual
/-- Names of all nodes of a dependency tree. -/
def Dependency.names : Dependency → List String
  | .mk n _ ds => n :: namesList ds
/-- Names of all nodes of a forest. -/
def namesList : List Dependency → List String
  | [] => []
  | d :: ds => d.names ++ namesList ds
end

/-- Go `map[string]Package`: a key is either bound to a record or absent. -/
abbrev Table := String → Option Package

/-- The map literal `map[string]Package{}`. -/
def Table.empty : Table := fun _ => none

/-- Go `m[k] = p`. -/
def Table.set (t : Table) (k : String) (p : Package) : Table :=
  fun q => if q = k then some p else t q

/-- Go `m[k]` in value position: an absent key reads as the zero `Package`. -/
def Table.get (t : Table) (k : String) : Package :=
  match t k with
  | some p => p
  | none => ⟨"", "", []⟩

/-- Go `strings.HasPrefix(s, pre)`: `s` begins with `pre`. Strings are taken as
their character sequences; for the ASCII literal `ext-` this is the byte test. -/
def HasPrefix (s pre : String) : Bool := pre.data.isPrefixOf s.data

/-- The loop of `InspectProject` (lines 68-71): the directory-scan records are
appended to the lockfile records and every record is stored under its name. -/
def InspectProject_lockfilePkgs (pkgs vendor : List Package) : Table :=
  (pkgs ++ vendor).foldl (fun m it => m.set it.Name it) Table.empty

/-- The `for _, requiredPkgName := range pkg.Require` loop of `_buildDepTree`
(lines 102-107). `call` is the recursive call with the table fixed; the state
is the children appended so far and the current visited set. -/
def buildChildren
    (call : Finset String → String → String → Option (Option Dependency × Finset String)) :
    List String → List Dependency × Finset String → Option (List Dependency × Finset String)
  | [], st => some st
  | requiredPkgName :: rest, (deps, visitedDep) =>
    match call visitedDep requiredPkgName "" with
    | none => none
    | some (none, visited1) => buildChildren call rest (deps, visited1)
    | some (some node, visited1) => buildChildren call rest (deps ++ [node], visited1)

/-- Go `_buildDepTree` (lines 84-109). The result is `none` when the fuel is
used up; otherwise it is the returned pointer (`none` for `nil`) together with
the visited set as the call leaves it, the deferred `delete` included. -/
def _buildDepTree : Nat → Table → Finset String → String → String →
    Option (Option Dependency × Finset String)
  | 0, _, _, _, _ => none
  | fuel + 1, lockfile, visitedDep, targetName, versionConstraint =>
    if targetName ∈ visitedDep ∨ visitedDep.card > 3 then
      some (none, visitedDep)
    else
      let visited1 := insert targetName visitedDep
      let pkg := lockfile.get targetName
      if targetName = "php" ∨ (HasPrefix targetName "ext-" = true ∧
          (pkg.Version = "*" ∨ pkg.Version = "" ∨ versionConstraint = "*")) then
        some (none, visited1.erase targetName)
      else if pkg.Version = "" then
        some (some (Dependency.mk targetName versionConstraint []), visited1.erase targetName)
      else
        match buildChildren (_buildDepTree fuel lockfile) pkg.Require ([], visited1) with
        | none => none
        | some (deps, visited2) =>
          some (some (Dependency.mk targetName pkg.Version deps), visited2.erase targetName)

/-- The node part of a call result, `none` when the call returned `nil`. -/
def resultNode (r : Option (Option Dependency × Finset String)) : Option Dependency :=
  match r with
  | some (some node, _) => some node
  | _ => none

/-- The table of the end-to-end scenario: `app/core` requires `app/util`. -/
def scenarioTable : Table :=
  (Table.empty.set "app/core" ⟨"app/core", "1.2.0", ["app/util"]⟩).set
    "app/util" ⟨"app/util", "3.0.0", []⟩

/-- A table that pins the platform extension `ext-json` to `1.2.3`. -/
def extTable : Table :=
  Table.empty.set "ext-json" ⟨"ext-json", "1.2.3", []⟩

/-- A cyclic table: `a/a` requires `b/b` and itself, `b/b` requires `a/a`. -/
def cyclicTable : Table :=
  (Table.empty.set "a/a" ⟨"a/a", "1.0.0", ["b/b", "a/a"]⟩).set
    "b/b" ⟨"b/b", "2.0.0", ["a/a"]⟩

/-- A chain of five packages, each requiring the next. -/
def chainTable : Table :=
  InspectProject_lockfilePkgs
    [⟨"p1", "1", ["p2"]⟩, ⟨"p2", "2", ["p3"]⟩, ⟨"p3", "3", ["p4"]⟩, ⟨"p4", "4", ["p5"]⟩,
      ⟨"p5", "5", []⟩] []

/-- The condition under which `_buildDepTree` returns `nil` (lines 85 and 95). -/
def dropped (lockfile : Table) (visitedDep : Finset String)
    (targetName versionConstraint : String) : Prop :=
  targetName ∈ visitedDep ∨ 3 < visitedDep.card ∨ targetName = "php" ∨
    (HasPrefix targetName "ext-" = true ∧
      (versionConstraint = "*" ∨ (lockfile.get targetName).Version = "" ∨
        (lockfile.get targetName).Version = "*"))

instance (lockfile : Table) (visitedDep : Finset String) (targetName versionConstraint : String) :
    Decidable (dropped lockfile visitedDep targetName versionConstraint) := by
  unfold dropped
  infer_instance

/-- What holds of a node returned by a call entered with visited set `v`:
every root-to-leaf path fits the depth bound, repeats no name and avoids `v`. -/
def NodeOk (v : Finset String) (node : Dependency) : Prop :=
  (∀ p ∈ node.paths, p.length + v.card ≤ 4 ∧ p.Nodup ∧ ∀ n ∈ p, n ∉ v) ∧
  (∀ n ∈ node.names, n ∉ v)

instance (v : Finset String) (node : Dependency) : Decidable (NodeOk v node) := by
  unfold NodeOk
  infer_instance

/-! ## One unfolding of the builder -/

theorem buildDepTree_succ (fuel : Nat) (lockfile : Table) (visitedDep : Finset String)
    (targetName versionConstraint : String) :
    _buildDepTree (fuel + 1) lockfile visitedDep targetName versionConstraint =
      if targetName ∈ visitedDep ∨ visitedDep.card > 3 then
        some (none, visitedDep)
      else if targetName = "php" ∨ (HasPrefix targetName "ext-" = true ∧
          ((lockfile.get targetName).Version = "*" ∨ (lockfile.get targetName).Version = "" ∨
            versionConstraint = "*")) then
        some (none, (insert targetName visitedDep).erase targetName)
      else if (lockfile.get targetName).Version = "" then
        some (some (Dependency.mk targetName versionConstraint []),
          (insert targetName visitedDep).erase targetName)
      else
        match buildChildren (_buildDepTree fuel lockfile) (lockfile.get targetName).Require
            ([], insert targetName visitedDep) with
        | none => none
        | some (deps, visited2) =>
          some (some (Dependency.mk targetName (lockfile.get targetName).Version deps),
            visited2.erase targetName) := rfl

/-! ## The children loop -/

theorem buildChildren_filterMap
    (call : Finset String → String → String → Option (Option Dependency × Finset String))
    (vis : Finset String) (f : String → Option Dependency) :
    ∀ (rs : List String) (deps : List Dependency),
      (∀ r ∈ rs, call vis r "" = some (f r, vis)) →
      buildChildren call rs (deps, vis) = some (deps ++ rs.filterMap f, vis) := by
  intro rs
  induction rs with
  | nil => intro deps _; simp [buildChildren]
  | cons r rs ih =>
    intro deps h
    have hr := h r (List.mem_cons_self _ _)
    have ih1 := fun ds => ih ds (fun x hx => h x (List.mem_cons_of_mem _ hx))
    cases hf : f r with
    | none =>
      rw [hf] at hr
      simp [buildChildren, hr, ih1, List.filterMap_cons, hf]
    | some node =>
      rw [hf] at hr
      simp [buildChildren, hr, ih1, List.filterMap_cons, hf]

theorem buildChildren_inv
    (call : Finset String → String → String → Option (Option Dependency × Finset String))
    (vis : Finset String) (Q : Dependency → Prop)
    (hpres : ∀ r res v1, call vis r "" = some (res, v1) → v1 = vis)
    (hQ : ∀ r node v1, call vis r "" = some (some node, v1) → Q node) :
    ∀ (rs : List String) (deps ds : List Dependency) (v2 : Finset String),
      (∀ d ∈ deps, Q d) →
      buildChildren call rs (deps, vis) = some (ds, v2) →
      v2 = vis ∧ ∀ d ∈ ds, Q d := by
  intro rs
  induction rs with
  | nil =>
    intro deps ds v2 hdeps h
    simp [buildChildren] at h
    obtain ⟨h1, h2⟩ := h
    subst h1 h2
    exact ⟨rfl, hdeps⟩
  | cons r rs ih =>
    intro deps ds v2 hdeps h
    cases hc : call vis r "" with
    | none => simp [buildChildren, hc] at h
    | some res =>
      obtain ⟨node, v1⟩ := res
      have hv : v1 = vis := hpres r node v1 hc
      subst hv
      cases node with
      | none =>
        simp only [buildChildren, hc] at h
        exact ih deps ds v2 hdeps h
      | some node =>
        simp only [buildChildren, hc] at h
        refine ih (deps ++ [node]) ds v2 ?_ h
        intro d hd
        rcases List.mem_append.mp hd with hd | hd
        · exact hdeps d hd
        · have : d = node := by simpa using hd
          subst this
          exact hQ r d v1 hc

/-! ## Paths and names of a forest -/

theorem mem_pathsList (ds : List Dependency) (p : List String) :
    p ∈ pathsList ds ↔ ∃ d ∈ ds, p ∈ d.paths := by
  induction ds with
  | nil => simp [pathsList]
  | cons d ds ih => simp [pathsList, ih]

theorem mem_namesList (ds : List Dependency) (n : String) :
    n ∈ namesList ds ↔ ∃ d ∈ ds, n ∈ d.names := by
  induction ds with
  | nil => simp [namesList]
  | cons d ds ih => simp [namesList, ih]

theorem mem_paths_mk (n v : String) (ds : List Dependency) (p : List String) :
    p ∈ (Dependency.mk n v ds).paths ↔
      (ds = [] ∧ p = [n]) ∨ (∃ d ∈ ds, ∃ q ∈ d.paths, p = n :: q) := by
  cases ds with
  | nil => simp [Dependency.paths]
  | cons d ds =>
    simp only [Dependency.paths, List.isEmpty_cons, Bool.false_eq_true, if_false, List.mem_map,
      mem_pathsList]
    constructor
    · rintro ⟨q, ⟨e, he, hq⟩, rfl⟩
      exact Or.inr ⟨e, he, q, hq, rfl⟩
    · rintro (⟨h, _⟩ | ⟨e, he, q, hq, rfl⟩)
      · simp at h
      · exact ⟨q, ⟨e, he, hq⟩, rfl⟩

/-! ## The visited set is handed back unchanged -/

theorem buildDepTree_visited (lockfile : Table) :
    ∀ (fuel : Nat) (visitedDep : Finset String) (targetName versionConstraint : String)
      (res : Option Dependency) (v1 : Finset String),
      _buildDepTree fuel lockfile visitedDep targetName versionConstraint = some (res, v1) →
      v1 = visitedDep := by
  intro fuel
  induction fuel with
  | zero => intro v t c res v1 h; simp [_buildDepTree] at h
  | succ fuel ih =>
    intro v t c res v1 h
    simp only [_buildDepTree] at h
    split_ifs at h with h1 h2 h3
    · simp at h; exact h.2.symm
    · have ht : t ∉ v := fun hm => h1 (Or.inl hm)
      rw [Finset.erase_insert ht] at h
      simp at h; exact h.2.symm
    · have ht : t ∉ v := fun hm => h1 (Or.inl hm)
      rw [Finset.erase_insert ht] at h
      simp at h; exact h.2.symm
    · have ht : t ∉ v := fun hm => h1 (Or.inl hm)
      split at h
      · simp at h
      · rename_i deps visited2 hb
        have hv := (buildChildren_inv (_buildDepTree fuel lockfile) (insert t v) (fun _ => True)
          (fun r res v1 hc => ih _ _ _ _ _ hc) (fun _ _ _ _ => trivial) _ [] deps visited2
          (by simp) hb).1
        subst hv
        rw [Finset.erase_insert ht] at h
        simp at h; exact h.2.symm

/-! ## Enough fuel always gives a result -/

theorem buildDepTree_total (lockfile : Table) :
    ∀ (fuel : Nat) (visitedDep : Finset String) (targetName versionConstraint : String),
      5 ≤ fuel + min visitedDep.card 4 →
      ∃ res, _buildDepTree fuel lockfile visitedDep targetName versionConstraint
        = some (res, visitedDep) := by
  intro fuel
  induction fuel with
  | zero => intro v t c h; omega
  | succ fuel ih =>
    intro v t c h
    simp only [_buildDepTree]
    split_ifs with h1 h2 h3
    · exact ⟨none, rfl⟩
    · have ht : t ∉ v := fun hm => h1 (Or.inl hm)
      rw [Finset.erase_insert ht]
      exact ⟨none, rfl⟩
    · have ht : t ∉ v := fun hm => h1 (Or.inl hm)
      rw [Finset.erase_insert ht]
      exact ⟨_, rfl⟩
    · have ht : t ∉ v := fun hm => h1 (Or.inl hm)
      have hc : v.card ≤ 3 := by
        have : ¬ v.card > 3 := fun hm => h1 (Or.inr hm)
        omega
      have hcard : (insert t v).card = v.card + 1 := Finset.card_insert_of_not_mem ht
      have hfuel : 5 ≤ fuel + min (insert t v).card 4 := by
        rw [hcard]; omega
      have hall : ∀ r ∈ (lockfile.get t).Require,
          _buildDepTree fuel lockfile (insert t v) r ""
            = some (resultNode (_buildDepTree fuel lockfile (insert t v) r ""), insert t v) := by
        intro r _
        obtain ⟨res, hres⟩ := ih (insert t v) r "" hfuel
        rw [hres]
        cases res <;> rfl
      rw [buildChildren_filterMap _ (insert t v)
        (fun r => resultNode (_buildDepTree fuel lockfile (insert t v) r "")) _ [] hall]
      simp only [Finset.erase_insert ht]
      exact ⟨_, rfl⟩

theorem buildChildren_mono
    (call1 call2 : Finset String → String → String → Option (Option Dependency × Finset String))
    (hcall : ∀ vis r x, call1 vis r "" = some x → call2 vis r "" = some x) :
    ∀ (rs : List String) (st y : List Dependency × Finset String),
      buildChildren call1 rs st = some y → buildChildren call2 rs st = some y := by
  intro rs
  induction rs with
  | nil => intro st y h; simpa [buildChildren] using h
  | cons r rs ih =>
    intro st y h
    obtain ⟨deps, vis⟩ := st
    cases hc : call1 vis r "" with
    | none => simp [buildChildren, hc] at h
    | some res =>
      have hc2 := hcall vis r res hc
      obtain ⟨node, v1⟩ := res
      cases node with
      | none =>
        simp only [buildChildren, hc] at h
        simp only [buildChildren, hc2]
        exact ih _ _ h
      | some node =>
        simp only [buildChildren, hc] at h
        simp only [buildChildren, hc2]
        exact ih _ _ h

theorem buildDepTree_mono (lockfile : Table) :
    ∀ (fuel : Nat) (visitedDep : Finset String) (targetName versionConstraint : String)
      (x : Option Dependency × Finset String),
      _buildDepTree fuel lockfile visitedDep targetName versionConstraint = some x →
      _buildDepTree (fuel + 1) lockfile visitedDep targetName versionConstraint = some x := by
  intro fuel
  induction fuel with
  | zero => intro v t c x h; simp [_buildDepTree] at h
  | succ fuel ih =>
    intro v t c x h
    rw [buildDepTree_succ] at h ⊢
    split_ifs at h ⊢ with h1 h2 h3
    · exact h
    · exact h
    · exact h
    · cases hb : buildChildren (_buildDepTree fuel lockfile) (lockfile.get t).Require
          ([], insert t v) with
      | none => simp [hb] at h
      | some y =>
        have hb2 := buildChildren_mono _ (_buildDepTree (fuel + 1) lockfile)
          (fun vis r x hx => ih vis r "" x hx) _ _ _ hb
        rw [hb] at h
        rw [hb2]
        exact h

theorem buildDepTree_mono_le (lockfile : Table) (visitedDep : Finset String)
    (targetName versionConstraint : String) (x : Option Dependency × Finset String) :
    ∀ (k fuel : Nat),
      _buildDepTree fuel lockfile visitedDep targetName versionConstraint = some x →
      _buildDepTree (fuel + k) lockfile visitedDep targetName versionConstraint = some x := by
  intro k
  induction k with
  | zero => intro fuel h; exact h
  | succ k ih =>
    intro fuel h
    exact buildDepTree_mono lockfile (fuel + k) _ _ _ x (ih fuel h)

/-- Two fuels that are both large enough give the same result. -/
theorem buildDepTree_fuel_indep (lockfile : Table) (visitedDep : Finset String)
    (targetName versionConstraint : String) (f1 f2 : Nat)
    (h1 : 5 ≤ f1 + min visitedDep.card 4) (h2 : 5 ≤ f2 + min visitedDep.card 4) :
    _buildDepTree f1 lockfile visitedDep targetName versionConstraint
      = _buildDepTree f2 lockfile visitedDep targetName versionConstraint := by
  obtain ⟨r1, hr1⟩ := buildDepTree_total lockfile f1 visitedDep targetName versionConstraint h1
  obtain ⟨r2, hr2⟩ := buildDepTree_total lockfile f2 visitedDep targetName versionConstraint h2
  rcases Nat.le_total f1 f2 with hle | hle
  · obtain ⟨k, rfl⟩ := Nat.exists_eq_add_of_le hle
    rw [buildDepTree_mono_le lockfile _ _ _ _ k f1 hr1, hr1]
  · obtain ⟨k, rfl⟩ := Nat.exists_eq_add_of_le hle
    rw [buildDepTree_mono_le lockfile _ _ _ _ k f2 hr2, hr2]

/-- The recursive case, unfolded once: the children are the non-nil results of
the calls on the requirement list, each made on `insert targetName visitedDep`. -/
theorem buildDepTree_recursive (lockfile : Table) (fuel : Nat) (visitedDep : Finset String)
    (targetName versionConstraint : String)
    (hvis : targetName ∉ visitedDep) (hcard : visitedDep.card ≤ 3)
    (hprune : ¬ (targetName = "php" ∨ (HasPrefix targetName "ext-" = true ∧
      ((lockfile.get targetName).Version = "*" ∨ (lockfile.get targetName).Version = "" ∨
        versionConstraint = "*"))))
    (hver : (lockfile.get targetName).Version ≠ "")
    (hfuel : 5 ≤ fuel + 1 + min visitedDep.card 4) :
    _buildDepTree (fuel + 1) lockfile visitedDep targetName versionConstraint
      = some (some (Dependency.mk targetName (lockfile.get targetName).Version
          ((lockfile.get targetName).Require.filterMap (fun r =>
            resultNode (_buildDepTree fuel lockfile (insert targetName visitedDep) r "")))),
          visitedDep) := by
  have h1 : ¬ (targetName ∈ visitedDep ∨ visitedDep.card > 3) := by
    rintro (h | h)
    · exact hvis h
    · omega
  have hci : (insert targetName visitedDep).card = visitedDep.card + 1 :=
    Finset.card_insert_of_not_mem hvis
  have hall : ∀ r ∈ (lockfile.get targetName).Require,
      _buildDepTree fuel lockfile (insert targetName visitedDep) r ""
        = some (resultNode (_buildDepTree fuel lockfile (insert targetName visitedDep) r ""),
            insert targetName visitedDep) := by
    intro r _
    obtain ⟨res, hres⟩ := buildDepTree_total lockfile fuel (insert targetName visitedDep) r ""
      (by rw [hci]; omega)
    rw [hres]
    cases res <;> rfl
  rw [buildDepTree_succ, if_neg h1, if_neg hprune, if_neg hver]
  rw [buildChildren_filterMap _ (insert targetName visitedDep)
    (fun r => resultNode (_buildDepTree fuel lockfile (insert targetName visitedDep) r "")) _ []
    hall]
  simp only [Finset.erase_insert hvis, List.nil_append]

/-! ## Shape of a returned tree -/

theorem nodeOk_leaf (v : Finset String) (t c : String) (ht : t ∉ v) (hc : v.card ≤ 3) :
    NodeOk v (Dependency.mk t c []) := by
  constructor
  · intro p hp
    simp [Dependency.paths] at hp
    subst hp
    refine ⟨by simp; omega, by simp, ?_⟩
    intro n hn
    have : n = t := by simpa using hn
    subst this
    exact ht
  · intro n hn
    have : n = t := by simpa [Dependency.names, namesList] using hn
    subst this
    exact ht

theorem nodeOk_mk (v : Finset String) (t ver : String) (ds : List Dependency)
    (ht : t ∉ v) (hc : v.card ≤ 3) (hds : ∀ d ∈ ds, NodeOk (insert t v) d) :
    NodeOk v (Dependency.mk t ver ds) := by
  have hci : (insert t v).card = v.card + 1 := Finset.card_insert_of_not_mem ht
  constructor
  · intro p hp
    rcases (mem_paths_mk t ver ds p).mp hp with ⟨_, rfl⟩ | ⟨d, hd, q, hq, rfl⟩
    · refine ⟨by simp; omega, by simp, ?_⟩
      intro n hn
      have : n = t := by simpa using hn
      subst this
      exact ht
    · obtain ⟨hlen, hnd, hout⟩ := (hds d hd).1 q hq
      rw [hci] at hlen
      refine ⟨by simp; omega, ?_, ?_⟩
      · refine List.nodup_cons.mpr ⟨?_, hnd⟩
        intro hm
        exact hout t hm (Finset.mem_insert_self t v)
      · intro n hn
        rcases List.mem_cons.mp hn with rfl | hn
        · exact ht
        · intro hv
          exact hout n hn (Finset.mem_insert_of_mem hv)
  · intro n hn
    simp only [Dependency.names, List.mem_cons, mem_namesList] at hn
    rcases hn with rfl | ⟨d, hd, hn⟩
    · exact ht
    · intro hv
      exact (hds d hd).2 n hn (Finset.mem_insert_of_mem hv)

theorem buildDepTree_node (lockfile : Table) :
    ∀ (fuel : Nat) (visitedDep : Finset String) (targetName versionConstraint : String)
      (node : Dependency) (v1 : Finset String),
      _buildDepTree fuel lockfile visitedDep targetName versionConstraint = some (some node, v1) →
      node.name = targetName ∧ targetName ∉ visitedDep ∧ visitedDep.card ≤ 3 ∧
        NodeOk visitedDep node := by
  intro fuel
  induction fuel with
  | zero => intro v t c node v1 h; simp [_buildDepTree] at h
  | succ fuel ih =>
    intro v t c node v1 h
    rw [buildDepTree_succ] at h
    split_ifs at h with h1 h2 h3
    · simp at h
    · simp at h
    · have ht : t ∉ v := fun hm => h1 (Or.inl hm)
      have hc : v.card ≤ 3 := by
        have : ¬ v.card > 3 := fun hm => h1 (Or.inr hm)
        omega
      simp only [Option.some.injEq, Prod.mk.injEq] at h
      obtain ⟨hn, _⟩ := h
      subst hn
      exact ⟨rfl, ht, hc, nodeOk_leaf v t c ht hc⟩
    · have ht : t ∉ v := fun hm => h1 (Or.inl hm)
      have hc : v.card ≤ 3 := by
        have : ¬ v.card > 3 := fun hm => h1 (Or.inr hm)
        omega
      split at h
      · simp at h
      · rename_i deps visited2 hb
        have hds := (buildChildren_inv (_buildDepTree fuel lockfile) (insert t v)
          (NodeOk (insert t v))
          (fun r res v1 hc => buildDepTree_visited lockfile _ _ _ _ _ _ hc)
          (fun r nd v1 hc => (ih _ _ _ _ _ hc).2.2.2) _ [] deps visited2
          (by simp) hb).2
        simp only [Option.some.injEq, Prod.mk.injEq] at h
        obtain ⟨hn, _⟩ := h
        subst hn
        exact ⟨rfl, ht, hc, nodeOk_mk v t _ deps ht hc hds⟩

/-! ## The four return paths -/

theorem buildDepTree_reject (lockfile : Table) (fuel : Nat) (visitedDep : Finset String)
    (targetName versionConstraint : String)
    (h : targetName ∈ visitedDep ∨ 3 < visitedDep.card) :
    _buildDepTree (fuel + 1) lockfile visitedDep targetName versionConstraint
      = some (none, visitedDep) := by
  rw [buildDepTree_succ, if_pos h]

theorem buildDepTree_prune (lockfile : Table) (fuel : Nat) (visitedDep : Finset String)
    (targetName versionConstraint : String)
    (h : targetName = "php" ∨ (HasPrefix targetName "ext-" = true ∧
      ((lockfile.get targetName).Version = "*" ∨ (lockfile.get targetName).Version = "" ∨
        versionConstraint = "*"))) :
    _buildDepTree (fuel + 1) lockfile visitedDep targetName versionConstraint
      = some (none, visitedDep) := by
  rw [buildDepTree_succ]
  by_cases h1 : targetName ∈ visitedDep ∨ visitedDep.card > 3
  · rw [if_pos h1]
  · have ht : targetName ∉ visitedDep := fun hm => h1 (Or.inl hm)
    rw [if_neg h1, if_pos h, Finset.erase_insert ht]

theorem buildDepTree_fallback (lockfile : Table) (fuel : Nat) (visitedDep : Finset String)
    (targetName versionConstraint : String)
    (hvis : targetName ∉ visitedDep) (hcard : visitedDep.card ≤ 3)
    (hphp : targetName ≠ "php") (hext : HasPrefix targetName "ext-" = false)
    (hver : (lockfile.get targetName).Version = "") :
    _buildDepTree (fuel + 1) lockfile visitedDep targetName versionConstraint
      = some (some (Dependency.mk targetName versionConstraint []), visitedDep) := by
  have h1 : ¬ (targetName ∈ visitedDep ∨ visitedDep.card > 3) := by
    rintro (h | h)
    · exact hvis h
    · omega
  have h2 : ¬ (targetName = "php" ∨ (HasPrefix targetName "ext-" = true ∧
      ((lockfile.get targetName).Version = "*" ∨ (lockfile.get targetName).Version = "" ∨
        versionConstraint = "*"))) := by
    rintro (h | ⟨h, _⟩)
    · exact hphp h
    · rw [hext] at h; exact Bool.false_ne_true h
  rw [buildDepTree_succ, if_neg h1, if_neg h2, if_pos hver, Finset.erase_insert hvis]

theorem get_of_absent (lockfile : Table) (k : String) (h : lockfile k = none) :
    lockfile.get k = ⟨"", "", []⟩ := by
  simp [Table.get, h]

theorem get_of_bound (lockfile : Table) (k : String) (pkg : Package) (h : lockfile k = some pkg) :
    lockfile.get k = pkg := by
  simp [Table.get, h]

/-! ## The table built by `InspectProject` -/

theorem foldl_set_apply (l : List Package) (m : Table) (n : String) :
    (l.foldl (fun m it => m.set it.Name it) m) n =
      match l.reverse.find? (fun p => decide (p.Name = n)) with
      | some p => some p
      | none => m n := by
  induction l generalizing m with
  | nil => simp
  | cons a l ih =>
    rw [List.foldl_cons, ih, List.reverse_cons, List.find?_append]
    cases hf : List.find? (fun p => decide (p.Name = n)) l.reverse with
    | some p => simp
    | none =>
      by_cases ha : a.Name = n
      · simp [List.find?, ha, Table.set]
      · have hn : ¬ n = a.Name := fun h => ha h.symm
        simp [List.find?, ha, hn, Table.set]

/-! ## Claims -/

/-- C1: `_buildDepTree` terminates on every table (cyclic requirement lists
included), visited set, target and constraint. A fuel of `5 - min |visited| 4`
nested calls always gives one and the same result; once the visited set holds
more than 3 names the call returns without recursing (one unit of fuel is
enough); and every call of the children loop is made on
`insert targetName visitedDep`, a strict superset of the caller's set, which
the loop hands back unchanged. -/
theorem buildDepTree_terminates (lockfile : Table) (visitedDep : Finset String)
    (targetName versionConstraint : String) :
    (∃ r, ∀ fuel, 5 ≤ fuel + min visitedDep.card 4 →
      _buildDepTree fuel lockfile visitedDep targetName versionConstraint = some r) ∧
    (3 < visitedDep.card → ∀ fuel,
      _buildDepTree (fuel + 1) lockfile visitedDep targetName versionConstraint
        = some (none, visitedDep)) ∧
    (targetName ∉ visitedDep →
      visitedDep ⊂ insert targetName visitedDep ∧
      visitedDep.card < (insert targetName visitedDep).card ∧
      ∀ (fuel : Nat) (reqs : List String) (deps : List Dependency),
        5 ≤ fuel + min (insert targetName visitedDep).card 4 →
        buildChildren (_buildDepTree fuel lockfile) reqs (deps, insert targetName visitedDep)
          = some (deps ++ reqs.filterMap (fun r =>
              resultNode (_buildDepTree fuel lockfile (insert targetName visitedDep) r "")),
            insert targetName visitedDep)) := by
  refine ⟨?_, ?_, ?_⟩
  · obtain ⟨res, hres⟩ := buildDepTree_total lockfile (5 - min visitedDep.card 4) visitedDep
      targetName versionConstraint (by omega)
    refine ⟨(res, visitedDep), fun fuel hfuel => ?_⟩
    rw [← hres]
    exact buildDepTree_fuel_indep lockfile visitedDep targetName versionConstraint _ _ hfuel
      (by omega)
  · intro h fuel
    exact buildDepTree_reject lockfile fuel visitedDep targetName versionConstraint (Or.inr h)
  · intro ht
    refine ⟨Finset.ssubset_insert ht, ?_, ?_⟩
    · rw [Finset.card_insert_of_not_mem ht]; omega
    · intro fuel reqs deps hfuel
      apply buildChildren_filterMap
      intro r _
      obtain ⟨res, hres⟩ := buildDepTree_total lockfile fuel (insert targetName visitedDep) r ""
        hfuel
      rw [hres]
      cases res <;> rfl

/-- The cyclic table is handled: `a/a` requires `b/b` and `a/a`, `b/b` requires
`a/a`, and the builder returns `a/a@1.0.0 → [b/b@2.0.0]`. -/
theorem buildDepTree_terminates_witness :
    (∃ r, ∀ fuel, 5 ≤ fuel + min (∅ : Finset String).card 4 →
      _buildDepTree fuel cyclicTable ∅ "a/a" "^1.0" = some r) ∧
    _buildDepTree 5 cyclicTable ∅ "a/a" "^1.0"
      = some (some (.mk "a/a" "1.0.0" [.mk "b/b" "2.0.0" []]), ∅) :=
  ⟨(buildDepTree_terminates cyclicTable ∅ "a/a" "^1.0").1, by rfl⟩

/-- C2: with enough fuel the call returns, and when it returns a node every
root-to-leaf path of that node has at most `4 - k` nodes, `k ≤ 3` being the
size of the visited set the call was entered with (which does not contain the
target); from the empty visited set that is at most 4 nodes. -/
theorem buildDepTree_path_length (lockfile : Table) (fuel : Nat) (visitedDep : Finset String)
    (targetName versionConstraint : String) (hfuel : 5 ≤ fuel) :
    ∃ res, _buildDepTree fuel lockfile visitedDep targetName versionConstraint
        = some (res, visitedDep) ∧
      ∀ node, res = some node →
        visitedDep.card ≤ 3 ∧ targetName ∉ visitedDep ∧
        ∀ p ∈ node.paths, p.length ≤ 4 - visitedDep.card := by
  obtain ⟨res, hres⟩ := buildDepTree_total lockfile fuel visitedDep targetName versionConstraint
    (by omega)
  refine ⟨res, hres, ?_⟩
  rintro node rfl
  obtain ⟨_, ht, hc, hok⟩ := buildDepTree_node lockfile _ _ _ _ _ _ hres
  refine ⟨hc, ht, fun p hp => ?_⟩
  have := (hok.1 p hp).1
  omega

/-- On a chain of five packages the tree stops at the fourth: the only
root-to-leaf path is `p1, p2, p3, p4`. -/
theorem buildDepTree_path_length_witness :
    (∃ res, _buildDepTree 5 chainTable ∅ "p1" "" = some (res, ∅) ∧
      ∀ node, res = some node →
        (∅ : Finset String).card ≤ 3 ∧ "p1" ∉ (∅ : Finset String) ∧
        ∀ p ∈ node.paths, p.length ≤ 4 - (∅ : Finset String).card) ∧
    (resultNode (_buildDepTree 5 chainTable ∅ "p1" "")).map Dependency.paths
      = some [["p1", "p2", "p3", "p4"]] :=
  ⟨buildDepTree_path_length chainTable 5 ∅ "p1" "" (by decide), by rfl⟩

/-- C3: with enough fuel the call returns, and in a returned tree no name
occurs twice on a root-to-leaf path and no node carries a name of the visited
set the call was entered with. -/
theorem buildDepTree_no_repeat (lockfile : Table) (fuel : Nat) (visitedDep : Finset String)
    (targetName versionConstraint : String) (hfuel : 5 ≤ fuel) :
    ∃ res, _buildDepTree fuel lockfile visitedDep targetName versionConstraint
        = some (res, visitedDep) ∧
      ∀ node, res = some node →
        (∀ p ∈ node.paths, p.Nodup) ∧ (∀ n ∈ node.names, n ∉ visitedDep) := by
  obtain ⟨res, hres⟩ := buildDepTree_total lockfile fuel visitedDep targetName versionConstraint
    (by omega)
  refine ⟨res, hres, ?_⟩
  rintro node rfl
  obtain ⟨_, _, _, hok⟩ := buildDepTree_node lockfile _ _ _ _ _ _ hres
  exact ⟨fun p hp => (hok.1 p hp).2.1, hok.2⟩

/-- On the cyclic table entered with `c/c` already visited, the tree of `a/a`
has the single path `a/a, b/b`; neither name repeats and `c/c` is absent. -/
theorem buildDepTree_no_repeat_witness :
    (∃ res, _buildDepTree 5 cyclicTable {"c/c"} "a/a" "" = some (res, {"c/c"}) ∧
      ∀ node, res = some node →
        (∀ p ∈ node.paths, p.Nodup) ∧ (∀ n ∈ node.names, n ∉ ({"c/c"} : Finset String))) ∧
    (resultNode (_buildDepTree 5 cyclicTable {"c/c"} "a/a" "")).map Dependency.paths
      = some [["a/a", "b/b"]] :=
  ⟨buildDepTree_no_repeat cyclicTable 5 {"c/c"} "a/a" "" (by decide), by rfl⟩

/-- C4, as stated, fails: with lockfile record `a/b@1.0.0` and directory-scan
record `a/b@2.0.0` the table entry for `a/b` carries the directory-scan
version `2.0.0`, not the lockfile version. -/
theorem lockfilePkgs_vendor_overrides :
    InspectProject_lockfilePkgs [⟨"a/b", "1.0.0", []⟩] [⟨"a/b", "2.0.0", ["c/d"]⟩] "a/b"
        = some ⟨"a/b", "2.0.0", ["c/d"]⟩ ∧
    (InspectProject_lockfilePkgs [⟨"a/b", "1.0.0", []⟩] [⟨"a/b", "2.0.0", ["c/d"]⟩]).get "a/b"
        ≠ ⟨"a/b", "1.0.0", []⟩ := by
  constructor
  · rfl
  · decide

/-- C4, amended: the table maps a name to the last record of that name in the
directory-scan list when there is one, and otherwise to the last record of
that name in the lockfile list (absent when neither list has the name): a
directory-scan record overrides lockfile records of the same name. -/
theorem lockfilePkgs_last_wins (pkgs vendor : List Package) (n : String) :
    InspectProject_lockfilePkgs pkgs vendor n =
      match vendor.reverse.find? (fun p => decide (p.Name = n)) with
      | some p => some p
      | none => pkgs.reverse.find? (fun p => decide (p.Name = n)) := by
  unfold InspectProject_lockfilePkgs
  rw [List.foldl_append, foldl_set_apply vendor, foldl_set_apply pkgs]
  cases List.find? (fun p => decide (p.Name = n)) vendor.reverse with
  | some p => rfl
  | none =>
    cases List.find? (fun p => decide (p.Name = n)) pkgs.reverse with
    | some p => rfl
    | none => rfl

/-- C5, as stated, fails: `ext-json` is pinned to `1.2.3` in the table, yet with
the constraint `*` the call returns nothing. -/
theorem buildDepTree_ext_wildcard_pruned :
    _buildDepTree 5 extTable ∅ "ext-json" "*" = some (none, ∅) ∧
    (extTable.get "ext-json").Version = "1.2.3" := by
  constructor
  · rfl
  · rfl

/-- C5, amended: a target with the `ext-` prefix whose table entry has a pinned
version `v` (neither empty nor `*`) is not pruned when the caller's constraint
is not `*`: from the empty visited set the call returns a node named after
the target with version `v`. -/
theorem buildDepTree_ext_pinned (lockfile : Table) (fuel : Nat)
    (targetName versionConstraint : String)
    (hext : HasPrefix targetName "ext-" = true)
    (hne : (lockfile.get targetName).Version ≠ "")
    (hstar : (lockfile.get targetName).Version ≠ "*")
    (hc : versionConstraint ≠ "*") (hfuel : 5 ≤ fuel) :
    ∃ deps, _buildDepTree fuel lockfile ∅ targetName versionConstraint
      = some (some (Dependency.mk targetName (lockfile.get targetName).Version deps), ∅) := by
  obtain ⟨f, rfl⟩ : ∃ f, fuel = f + 1 := ⟨fuel - 1, by omega⟩
  have hphp : targetName ≠ "php" := by
    rintro rfl
    exact absurd hext (by decide)
  refine ⟨_, buildDepTree_recursive lockfile f ∅ targetName versionConstraint (by simp)
    (by simp) ?_ hne (by omega)⟩
  rintro (h | ⟨_, h | h | h⟩)
  · exact hphp h
  · exact hstar h
  · exact hne h
  · exact hc h

/-- `ext-json` pinned to `1.2.3`, asked for with `^1.0`, is kept at `1.2.3`. -/
theorem buildDepTree_ext_pinned_witness :
    ∃ deps, _buildDepTree 5 extTable ∅ "ext-json" "^1.0"
      = some (some (Dependency.mk "ext-json" (extTable.get "ext-json").Version deps), ∅) :=
  buildDepTree_ext_pinned extTable 5 "ext-json" "^1.0" (by decide) (by decide) (by decide)
    (by decide) (by decide)

/-- C6: the target `php` yields nothing for every table, visited set and
constraint; a target with the `ext-` prefix yields nothing whenever the
constraint is `*`, or the target is absent from the table or has an empty
version there, or its table version is `*`. -/
theorem buildDepTree_platform_pruned (lockfile : Table) (fuel : Nat) (visitedDep : Finset String)
    (targetName versionConstraint : String) :
    _buildDepTree (fuel + 1) lockfile visitedDep "php" versionConstraint
      = some (none, visitedDep) ∧
    (HasPrefix targetName "ext-" = true →
      (versionConstraint = "*" ∨ lockfile targetName = none ∨
        (lockfile.get targetName).Version = "" ∨ (lockfile.get targetName).Version = "*") →
      _buildDepTree (fuel + 1) lockfile visitedDep targetName versionConstraint
        = some (none, visitedDep)) := by
  refine ⟨buildDepTree_prune lockfile fuel visitedDep "php" versionConstraint (Or.inl rfl), ?_⟩
  intro hext h
  apply buildDepTree_prune
  refine Or.inr ⟨hext, ?_⟩
  rcases h with h | h | h | h
  · exact Or.inr (Or.inr h)
  · exact Or.inr (Or.inl (by rw [get_of_absent lockfile targetName h]))
  · exact Or.inr (Or.inl h)
  · exact Or.inl h

/-- With `php` pinned to `8.1.0` in the table the call still returns nothing,
and `ext-json` with the constraint `*` and no table entry returns nothing. -/
theorem buildDepTree_platform_pruned_witness :
    _buildDepTree 1 (Table.empty.set "php" ⟨"php", "8.1.0", []⟩) ∅ "php" "^8.0"
      = some (none, ∅) ∧
    _buildDepTree 1 Table.empty ∅ "ext-json" "*" = some (none, ∅) :=
  ⟨(buildDepTree_platform_pruned (Table.empty.set "php" ⟨"php", "8.1.0", []⟩) 0 ∅ "ext-json"
      "^8.0").1,
    (buildDepTree_platform_pruned Table.empty 0 ∅ "ext-json" "*").2 (by decide)
      (Or.inl rfl)⟩

/-- C7: a target absent from the table that is not `php` and has no `ext-`
prefix, called with a visited set of at most 3 names not containing it, comes
back as a leaf carrying the target name and the caller's constraint. -/
theorem buildDepTree_unresolved_leaf (lockfile : Table) (fuel : Nat) (visitedDep : Finset String)
    (targetName versionConstraint : String)
    (habsent : lockfile targetName = none)
    (hphp : targetName ≠ "php") (hext : HasPrefix targetName "ext-" = false)
    (hvis : targetName ∉ visitedDep) (hcard : visitedDep.card ≤ 3) :
    _buildDepTree (fuel + 1) lockfile visitedDep targetName versionConstraint
      = some (some (Dependency.mk targetName versionConstraint []), visitedDep) :=
  buildDepTree_fallback lockfile fuel visitedDep targetName versionConstraint hvis hcard hphp hext
    (by rw [get_of_absent lockfile targetName habsent])

/-- The target `foo/bar` with constraint `^2.0` and an empty table yields the
leaf `foo/bar@^2.0`. -/
theorem buildDepTree_unresolved_leaf_witness :
    _buildDepTree 1 Table.empty ∅ "foo/bar" "^2.0"
      = some (some (Dependency.mk "foo/bar" "^2.0" []), ∅) :=
  buildDepTree_unresolved_leaf Table.empty 0 ∅ "foo/bar" "^2.0" rfl (by decide) (by decide)
    (by simp) (by simp)

/-- C8: a target bound in the table to a record with a non-empty version,
called with a visited set of at most 3 names not containing it and not pruned,
comes back as the node carrying the table version (the caller's constraint is
dropped) whose children are, in requirement-list order, the non-nil results of
the calls on `insert targetName visitedDep` with the empty constraint. -/
theorem buildDepTree_resolved (lockfile : Table) (fuel : Nat) (visitedDep : Finset String)
    (targetName versionConstraint : String) (pkg : Package)
    (hbound : lockfile targetName = some pkg) (hver : pkg.Version ≠ "")
    (hvis : targetName ∉ visitedDep) (hcard : visitedDep.card ≤ 3)
    (hphp : targetName ≠ "php")
    (hext : ¬ (HasPrefix targetName "ext-" = true ∧
      (pkg.Version = "*" ∨ versionConstraint = "*")))
    (hfuel : 5 ≤ fuel) :
    _buildDepTree fuel lockfile visitedDep targetName versionConstraint
      = some (some (Dependency.mk targetName pkg.Version
          (pkg.Require.filterMap (fun r =>
            resultNode (_buildDepTree fuel lockfile (insert targetName visitedDep) r "")))),
          visitedDep) := by
  obtain ⟨f, rfl⟩ : ∃ f, fuel = f + 1 := ⟨fuel - 1, by omega⟩
  have hget := get_of_bound lockfile targetName pkg hbound
  have hci : (insert targetName visitedDep).card = visitedDep.card + 1 :=
    Finset.card_insert_of_not_mem hvis
  have hrec := buildDepTree_recursive lockfile f visitedDep targetName versionConstraint hvis
    hcard (by
      rw [hget]
      rintro (h | ⟨h1, h | h | h⟩)
      · exact hphp h
      · exact hext ⟨h1, Or.inl h⟩
      · exact hver h
      · exact hext ⟨h1, Or.inr h⟩) (by rw [hget]; exact hver) (by omega)
  rw [hrec, hget]
  have hchild : ∀ r, _buildDepTree f lockfile (insert targetName visitedDep) r ""
      = _buildDepTree (f + 1) lockfile (insert targetName visitedDep) r "" := fun r =>
    buildDepTree_fuel_indep lockfile _ r "" f (f + 1) (by rw [hci]; omega) (by rw [hci]; omega)
  simp only [hchild]

/-- End-to-end scenario: `app/core` asked for with `^1.0` yields `app/core@1.2.0`
with the single child `app/util@3.0.0`. -/
theorem buildDepTree_resolved_witness :
    _buildDepTree 5 scenarioTable ∅ "app/core" "^1.0"
        = some (some (Dependency.mk "app/core" "1.2.0"
            (["app/util"].filterMap (fun r =>
              resultNode (_buildDepTree 5 scenarioTable (insert "app/core" ∅) r "")))), ∅) ∧
    _buildDepTree 5 scenarioTable ∅ "app/core" "^1.0"
        = some (some (.mk "app/core" "1.2.0" [.mk "app/util" "3.0.0" []]), ∅) :=
  ⟨buildDepTree_resolved scenarioTable 5 ∅ "app/core" "^1.0" ⟨"app/core", "1.2.0", ["app/util"]⟩
      rfl (by decide) (by simp) (by simp) (by decide) (by decide) (by decide),
    by rfl⟩

/-- C9: the visited set a call hands back equals the one it was entered with,
on every return path: any result carries the entry set, and with enough fuel
there is a result. In between the children loop runs on
`insert targetName visitedDep`, hands that set back unchanged, and erasing the
target from it restores the entry set. -/
theorem buildDepTree_visited_restored (lockfile : Table) (visitedDep : Finset String)
    (targetName versionConstraint : String) :
    (∀ fuel res v1,
      _buildDepTree fuel lockfile visitedDep targetName versionConstraint = some (res, v1) →
      v1 = visitedDep) ∧
    (∀ fuel, 5 ≤ fuel →
      ∃ res, _buildDepTree fuel lockfile visitedDep targetName versionConstraint
        = some (res, visitedDep)) ∧
    (∀ fuel reqs deps ds v2,
      buildChildren (_buildDepTree fuel lockfile) reqs (deps, insert targetName visitedDep)
        = some (ds, v2) → v2 = insert targetName visitedDep) ∧
    (targetName ∉ visitedDep → (insert targetName visitedDep).erase targetName = visitedDep) := by
  refine ⟨?_, ?_, ?_, ?_⟩
  · intro fuel res v1 h
    exact buildDepTree_visited lockfile fuel visitedDep targetName versionConstraint res v1 h
  · intro fuel hfuel
    exact buildDepTree_total lockfile fuel visitedDep targetName versionConstraint (by omega)
  · intro fuel reqs deps ds v2 h
    exact (buildChildren_inv (_buildDepTree fuel lockfile) (insert targetName visitedDep)
      (fun _ => True) (fun r res v1 hc => buildDepTree_visited lockfile _ _ _ _ _ _ hc)
      (fun _ _ _ _ => trivial) reqs deps ds v2 (fun _ _ => trivial) h).1
  · intro ht
    exact Finset.erase_insert ht

/-- On the cyclic table, entered with `c/c` visited, the call for `a/a` hands
back exactly `c/c`. -/
theorem buildDepTree_visited_restored_witness :
    ∃ res, _buildDepTree 5 cyclicTable {"c/c"} "a/a" "" = some (res, {"c/c"}) :=
  (buildDepTree_visited_restored cyclicTable {"c/c"} "a/a" "").2.1 5 (by decide)

/-- C10: with enough fuel the call returns; it returns nothing exactly when the
target is already visited, or more than 3 names are visited, or the target is
`php`, or the target has the `ext-` prefix and the constraint is `*` or the
table version is empty or `*`; in every other case it returns a node named
after the target. -/
theorem buildDepTree_dropped_iff (lockfile : Table) (fuel : Nat) (visitedDep : Finset String)
    (targetName versionConstraint : String) (hfuel : 5 ≤ fuel) :
    ∃ res, _buildDepTree fuel lockfile visitedDep targetName versionConstraint
        = some (res, visitedDep) ∧
      (res = none ↔ dropped lockfile visitedDep targetName versionConstraint) ∧
      (¬ dropped lockfile visitedDep targetName versionConstraint →
        ∃ node, res = some node ∧ node.name = targetName) := by
  obtain ⟨f, rfl⟩ : ∃ f, fuel = f + 1 := ⟨fuel - 1, by omega⟩
  by_cases hd : dropped lockfile visitedDep targetName versionConstraint
  · refine ⟨none, ?_, ⟨fun _ => hd, fun _ => rfl⟩, fun h => absurd hd h⟩
    rcases hd with h | h | h | ⟨h1, h | h | h⟩
    · exact buildDepTree_reject lockfile f _ _ _ (Or.inl h)
    · exact buildDepTree_reject lockfile f _ _ _ (Or.inr h)
    · exact buildDepTree_prune lockfile f _ _ _ (Or.inl h)
    · exact buildDepTree_prune lockfile f _ _ _ (Or.inr ⟨h1, Or.inr (Or.inr h)⟩)
    · exact buildDepTree_prune lockfile f _ _ _ (Or.inr ⟨h1, Or.inr (Or.inl h)⟩)
    · exact buildDepTree_prune lockfile f _ _ _ (Or.inr ⟨h1, Or.inl h⟩)
  · have hvis : targetName ∉ visitedDep := fun h => hd (Or.inl h)
    have hcard : visitedDep.card ≤ 3 := by
      have : ¬ 3 < visitedDep.card := fun h => hd (Or.inr (Or.inl h))
      omega
    have hprune : ¬ (targetName = "php" ∨ (HasPrefix targetName "ext-" = true ∧
        ((lockfile.get targetName).Version = "*" ∨ (lockfile.get targetName).Version = "" ∨
          versionConstraint = "*"))) := by
      rintro (h | ⟨h1, h | h | h⟩)
      · exact hd (Or.inr (Or.inr (Or.inl h)))
      · exact hd (Or.inr (Or.inr (Or.inr ⟨h1, Or.inr (Or.inr h)⟩)))
      · exact hd (Or.inr (Or.inr (Or.inr ⟨h1, Or.inr (Or.inl h)⟩)))
      · exact hd (Or.inr (Or.inr (Or.inr ⟨h1, Or.inl h⟩)))
    by_cases hver : (lockfile.get targetName).Version = ""
    · have h1 : ¬ (targetName ∈ visitedDep ∨ visitedDep.card > 3) := by
        rintro (h | h)
        · exact hvis h
        · omega
      refine ⟨some (Dependency.mk targetName versionConstraint []), ?_,
        ⟨fun h => by simp at h, fun h => absurd h hd⟩, fun _ => ⟨_, rfl, rfl⟩⟩
      rw [buildDepTree_succ, if_neg h1, if_neg hprune, if_pos hver, Finset.erase_insert hvis]
    · refine ⟨_, buildDepTree_recursive lockfile f visitedDep targetName versionConstraint hvis
        hcard hprune hver (by omega), ⟨fun h => by simp at h, fun h => absurd h hd⟩,
        fun _ => ⟨_, rfl, rfl⟩⟩

/-- The unresolved `foo/bar` is none of the dropped cases and comes back as a
node named `foo/bar`. -/
theorem buildDepTree_dropped_iff_witness :
    (∃ res, _buildDepTree 5 Table.empty ∅ "foo/bar" "^2.0" = some (res, ∅) ∧
      (res = none ↔ dropped Table.empty ∅ "foo/bar" "^2.0") ∧
      (¬ dropped Table.empty ∅ "foo/bar" "^2.0" →
        ∃ node, res = some node ∧ node.name = "foo/bar")) ∧
    ¬ dropped Table.empty ∅ "foo/bar" "^2.0" ∧
    dropped cyclicTable {"a/a"} "a/a" "" :=
  ⟨buildDepTree_dropped_iff Table.empty 5 ∅ "foo/bar" "^2.0" (by decide), by decide, by decide⟩

end Composer
